import Mathlib

/-!
Verification of the reservoir limiter (reservoir_limiter.go).

The Go program is embedded in two layers:

* a functional embedding of the straight-line parts: the constructor
  NewReservoirLimiter, the body of Limit, and one run of the
  refillTokens goroutine observed along its ticks; and
* a small-step transition relation for the concurrent protocol: the
  callers of Limit, the manageTokens goroutine, and the refill
  goroutines, communicating over the unbuffered channels l.in and
  l.out and the mutex-guarded counter numConcurrent.  Since both
  channels are unbuffered, a channel transfer is a rendezvous and is
  one atomic step combining the sender and the receiver; the
  mutex-guarded sections are likewise single atomic steps.
-/

namespace ReservoirLimiter

/-- The struct reservoirLimiter: maxTokens, refillDuration and the
zero-initialised counter numConcurrent.  The two unbuffered channels
carry no state of their own (pure rendezvous) and are represented by
the transition relation below, not by struct fields. -/
structure reservoirLimiter where
  maxTokens : ℤ
  refillDuration : ℤ
  numConcurrent : ℤ
  deriving DecidableEq

/-- NewReservoirLimiter: builds the struct.  Fallible Go code is
embedded into Option; this constructor has no failure branch and no
validation in the source, so it returns some handle on every input. -/
def NewReservoirLimiter (maxTokens refillDuration : ℤ) : Option reservoirLimiter :=
  some { maxTokens := maxTokens, refillDuration := refillDuration, numConcurrent := 0 }

/-- Modelled from the spec: the Construct operation of section 6 of the
spec, which fails (none) when capacity or refillPeriod is not positive.
It exists only to be compared with the source constructor. -/
def constructSpec (capacity refillPeriod : ℤ) : Option reservoirLimiter :=
  if capacity ≤ 0 ∨ refillPeriod ≤ 0 then none
  else some { maxTokens := capacity, refillDuration := refillPeriod, numConcurrent := 0 }

/-- One run of refillTokens, observed along its ticks.  Each list entry
records whether a receiver on the channel l.in was ready at that tick,
which is exactly what decides the non-blocking send in the select of
the source.  Result: how many tokens this run delivered, and whether
the run has stopped (took the default branch and returned) or is still
ticking after the observed ticks. -/
def refillTokens : List Bool → ℕ × Bool
  | [] => (0, false)
  | ready :: rest =>
    if ready then ((refillTokens rest).1 + 1, (refillTokens rest).2)
    else (0, true)

/-- Which branch of the select in Limit fires: a token arrived on the
channel l.out, or the context is done.  When both are ready the Go
runtime picks one of them, so the branch is an input of the model. -/
inductive LimitBranch
  | tokenArrived
  | ctxDone
  deriving DecidableEq

/-- The mutex section at the top of Limit: from the current value of
numConcurrent, the updated value together with whether the statement
go manageTokens() was executed. -/
def limitEnter (n : ℤ) : ℤ × Bool :=
  if n = 0 then (2, true) else (n + 1, false)

/-- The body of Limit as a function of the entry value of numConcurrent,
the select branch that fires, and the value of ctx.Err().  Result: the
final value of numConcurrent, whether a manager goroutine was started,
and the returned error (none is nil, some e is ctx.Err()). -/
def Limit {α : Type} (n : ℤ) (branch : LimitBranch) (ctxErr : α) :
    ℤ × Bool × Option α :=
  let e := limitEnter n
  match branch with
  | .tokenArrived => (e.1 - 1, e.2, none)
  | .ctxDone => (e.1 - 1, e.2, some ctxErr)

/-- State of the manageTokens goroutine: at the top of its loop with
the given tokenCount, or past the full-state mutex check and blocked
sending on the channel l.out. -/
inductive MgrState
  | loop (tokenCount : ℤ)
  | sendFull (tokenCount : ℤ)
  deriving DecidableEq

/-- The three-way dispatch of the switch in manageTokens.  Go checks
case 0 first, then case l.maxTokens, then the default branch; in
particular for maxTokens = 0 the first case wins at tokenCount = 0. -/
inductive SwitchCase
  | empty
  | full
  | between
  deriving DecidableEq

def switchDispatch (max tokenCount : ℤ) : SwitchCase :=
  if tokenCount = 0 then .empty
  else if tokenCount = max then .full
  else .between

/-- The tokenCount held by a manager in either of its states. -/
def levelOf : MgrState → ℤ
  | .loop l => l
  | .sendFull l => l

/-- Global configuration of the protocol.  The managers field is a
multiset so that the claim that at most one manager ever runs is a
theorem of the model, not an assumption; callers of Limit are tracked
by how many of them sit at each program point of Limit. -/
structure Config where
  numConcurrent : ℤ
  managers : Multiset MgrState
  blocked : ℕ
  gotToken : ℕ
  cancelled : ℕ
  doneOk : ℕ
  doneCancel : ℕ
  schedulers : ℕ
  deriving DecidableEq

/-- Labels of the transition steps, used to carve out executions with
no elapsed refill time or with no cancellation. -/
inductive Lbl
  | enter
  | dispense
  | cancelHit
  | exitOk
  | exitCancel
  | mgrCheck
  | tickOk
  | tickFail
  deriving DecidableEq

/-- One interleaving step of the system.  Each constructor is one
atomic step of the source: a mutex-guarded section, a channel
rendezvous, or the observation of a ready cancellation signal.

* enterStart, enterJoin: the mutex section at the top of Limit.
* mgrExit, mgrFullSend: the mutex section of the full case of the
  switch in manageTokens (the send after the unlock is a separate
  blocking state, sendFull).
* dispenseFull: rendezvous of the send l.out <- token{} of the full
  case with a caller blocked in the select of Limit, followed by the
  manager-local tokenCount-- and go refillTokens().
* dispenseMid: rendezvous of the case l.out <- token{} of the default
  select with a blocked caller, followed by tokenCount--.
* tickOk: rendezvous of a refill goroutine whose non-blocking send on
  l.in finds the manager receiving, either blocked at <-l.in in the
  empty case or offering case <-l.in in the default select, followed
  by tokenCount++.
* tickFail: a tick of a refill goroutine whose non-blocking send finds
  no committed receiver (which can happen at any time, also while the
  manager is between iterations of its loop), so the goroutine stops
  its ticker and returns.
* cancelHit: a blocked caller observes case <-ctx.Done().
* exitOk, exitCancel: the mutex section after the select of Limit.
-/
inductive Step (max : ℤ) : Lbl → Config → Config → Prop
  | enterStart (c d : Config) :
      c.numConcurrent = 0 →
      d = { c with numConcurrent := 2,
                   managers := MgrState.loop max ::ₘ c.managers,
                   blocked := c.blocked + 1 } →
      Step max Lbl.enter c d
  | enterJoin (c d : Config) :
      c.numConcurrent ≠ 0 →
      d = { c with numConcurrent := c.numConcurrent + 1,
                   blocked := c.blocked + 1 } →
      Step max Lbl.enter c d
  | mgrExit (c d : Config) (l : ℤ) :
      MgrState.loop l ∈ c.managers →
      switchDispatch max l = SwitchCase.full →
      c.numConcurrent = 1 →
      d = { c with numConcurrent := 0,
                   managers := c.managers.erase (MgrState.loop l) } →
      Step max Lbl.mgrCheck c d
  | mgrFullSend (c d : Config) (l : ℤ) :
      MgrState.loop l ∈ c.managers →
      switchDispatch max l = SwitchCase.full →
      c.numConcurrent ≠ 1 →
      d = { c with managers :=
              MgrState.sendFull l ::ₘ c.managers.erase (MgrState.loop l) } →
      Step max Lbl.mgrCheck c d
  | dispenseFull (c d : Config) (l : ℤ) (b : ℕ) :
      MgrState.sendFull l ∈ c.managers →
      c.blocked = b + 1 →
      d = { c with managers :=
              MgrState.loop (l - 1) ::ₘ c.managers.erase (MgrState.sendFull l),
                   blocked := b,
                   gotToken := c.gotToken + 1,
                   schedulers := c.schedulers + 1 } →
      Step max Lbl.dispense c d
  | dispenseMid (c d : Config) (l : ℤ) (b : ℕ) :
      MgrState.loop l ∈ c.managers →
      switchDispatch max l = SwitchCase.between →
      c.blocked = b + 1 →
      d = { c with managers :=
              MgrState.loop (l - 1) ::ₘ c.managers.erase (MgrState.loop l),
                   blocked := b,
                   gotToken := c.gotToken + 1 } →
      Step max Lbl.dispense c d
  | tickOk (c d : Config) (l : ℤ) :
      1 ≤ c.schedulers →
      MgrState.loop l ∈ c.managers →
      (switchDispatch max l = SwitchCase.empty ∨
       switchDispatch max l = SwitchCase.between) →
      d = { c with managers :=
              MgrState.loop (l + 1) ::ₘ c.managers.erase (MgrState.loop l) } →
      Step max Lbl.tickOk c d
  | tickFail (c d : Config) (s : ℕ) :
      c.schedulers = s + 1 →
      d = { c with schedulers := s } →
      Step max Lbl.tickFail c d
  | cancelHit (c d : Config) (b : ℕ) :
      c.blocked = b + 1 →
      d = { c with blocked := b, cancelled := c.cancelled + 1 } →
      Step max Lbl.cancelHit c d
  | exitOk (c d : Config) (g : ℕ) :
      c.gotToken = g + 1 →
      d = { c with gotToken := g,
                   doneOk := c.doneOk + 1,
                   numConcurrent := c.numConcurrent - 1 } →
      Step max Lbl.exitOk c d
  | exitCancel (c d : Config) (g : ℕ) :
      c.cancelled = g + 1 →
      d = { c with cancelled := g,
                   doneCancel := c.doneCancel + 1,
                   numConcurrent := c.numConcurrent - 1 } →
      Step max Lbl.exitCancel c d

/-- The idle system: numConcurrent is zero-initialised, no goroutine
runs, no caller has arrived. -/
def init : Config :=
  { numConcurrent := 0, managers := 0, blocked := 0, gotToken := 0,
    cancelled := 0, doneOk := 0, doneCancel := 0, schedulers := 0 }

/-- No restriction on the labels of an execution. -/
def AllL : Lbl → Prop := fun _ => True

/-- Executions with no elapsed refill time: no ticker ever fires. -/
def NoTick : Lbl → Prop := fun l => l ≠ Lbl.tickOk ∧ l ≠ Lbl.tickFail

/-- Executions with no elapsed refill time and no cancellation. -/
def NoTickCancel : Lbl → Prop := fun l => NoTick l ∧ l ≠ Lbl.cancelHit

/-- Reachability along steps whose labels satisfy A. -/
inductive Reach (max : ℤ) (A : Lbl → Prop) (start : Config) : Config → Prop
  | refl : Reach max A start start
  | tail {b c : Config} {l : Lbl} :
      Reach max A start b → Step max l b c → A l → Reach max A start c

/-- The configuration between two drain rounds: one manager at the
given level, no caller in flight, dk successful admissions so far, s
refill goroutines started and still pending. -/
def midCfg (l : ℤ) (dk s : ℕ) : Config :=
  { numConcurrent := 1, managers := {MgrState.loop l}, blocked := 0,
    gotToken := 0, cancelled := 0, doneOk := dk, doneCancel := 0,
    schedulers := s }

/-- Concrete configurations used by the witness theorems. -/
def cfgC1 : Config := Config.mk 2 {MgrState.loop 1} 1 0 0 0 0 1

def cfgC6 : Config := Config.mk 3 {MgrState.sendFull 2} 2 0 0 0 0 1

def cfgC6b : Config := Config.mk 3 {MgrState.sendFull 2} 1 0 1 0 0 1

def cfgC6c : Config := Config.mk 2 {MgrState.sendFull 2} 1 0 0 0 1 1

def cfgC9 : Config := Config.mk 2 {MgrState.loop 0} 1 0 0 0 0 0

/-! Characterisation of the switch dispatch. -/

lemma dispatch_empty_iff (max l : ℤ) :
    switchDispatch max l = SwitchCase.empty ↔ l = 0 := by
  unfold switchDispatch
  split_ifs with h1 h2 <;> simp_all

lemma dispatch_full_iff (max l : ℤ) :
    switchDispatch max l = SwitchCase.full ↔ l ≠ 0 ∧ l = max := by
  unfold switchDispatch
  split_ifs with h1 h2 <;> simp_all

lemma dispatch_between_iff (max l : ℤ) :
    switchDispatch max l = SwitchCase.between ↔ l ≠ 0 ∧ l ≠ max := by
  unfold switchDispatch
  split_ifs with h1 h2 <;> simp_all

/-! Small multiset helpers. -/

lemma card_swap {s : Multiset MgrState} {x y : MgrState} (hx : x ∈ s) :
    Multiset.card (y ::ₘ s.erase x) = Multiset.card s := by
  rw [Multiset.card_cons, Multiset.card_erase_of_mem hx]
  exact Nat.succ_pred_eq_of_pos (Multiset.card_pos_iff_exists_mem.mpr ⟨x, hx⟩)

lemma singleton_of_card_le_one {s : Multiset MgrState} {x : MgrState}
    (hx : x ∈ s) (hc : Multiset.card s ≤ 1) : s = {x} := by
  obtain ⟨t, ht⟩ := Multiset.exists_cons_of_mem hx
  subst ht
  rw [Multiset.card_cons] at hc
  have : t = 0 := Multiset.card_eq_zero.mp (by omega)
  subst this
  rfl

lemma mem_swap {s : Multiset MgrState} {x y m : MgrState}
    (hm : m ∈ y ::ₘ s.erase x) : m = y ∨ m ∈ s := by
  rcases Multiset.mem_cons.mp hm with h | h
  · exact Or.inl h
  · exact Or.inr (Multiset.mem_of_mem_erase h)

/-! The lifecycle invariant: numConcurrent counts the running manager
plus the callers that have entered Limit and not yet left, at most one
manager runs, and without a manager no caller is in flight. -/

def inflight (c : Config) : ℤ :=
  (c.blocked : ℤ) + (c.gotToken : ℤ) + (c.cancelled : ℤ)

def Inv (c : Config) : Prop :=
  c.numConcurrent = (Multiset.card c.managers : ℤ) + inflight c ∧
  Multiset.card c.managers ≤ 1 ∧
  (c.managers = 0 → c.blocked = 0 ∧ c.gotToken = 0 ∧ c.cancelled = 0)

lemma inv_init : Inv init := by
  refine ⟨by simp [init, inflight], by simp [init], fun _ => by simp [init]⟩

lemma managers_ne_zero_of_mem {s : Multiset MgrState} {x : MgrState} (h : x ∈ s) :
    s ≠ 0 := by
  intro h0
  rw [h0] at h
  exact absurd h (Multiset.not_mem_zero x)

lemma step_preserves_inv {max : ℤ} {lbl : Lbl} {c d : Config}
    (hs : Step max lbl c d) (hi : Inv c) : Inv d := by
  obtain ⟨h1, h2, h3⟩ := hi
  unfold inflight at h1
  cases hs with
  | enterStart c d h0 hd =>
    subst hd
    have hcard : Multiset.card c.managers = 0 := by omega
    have hm : c.managers = 0 := Multiset.card_eq_zero.mp hcard
    obtain ⟨hb, hg, hcc⟩ := h3 hm
    refine ⟨?_, ?_, ?_⟩
    · show (2 : ℤ) = (Multiset.card (MgrState.loop max ::ₘ c.managers) : ℤ) + _
      unfold inflight
      rw [Multiset.card_cons]
      push_cast
      omega
    · show Multiset.card (MgrState.loop max ::ₘ c.managers) ≤ 1
      rw [Multiset.card_cons]
      omega
    · intro habs
      exact absurd habs (Multiset.cons_ne_zero)
  | enterJoin c d h0 hd =>
    subst hd
    refine ⟨?_, h2, ?_⟩
    · unfold inflight
      push_cast
      try dsimp only
      omega
    · intro hm
      have hm2 : c.managers = 0 := hm
      obtain ⟨hb, hg, hcc⟩ := h3 hm2
      have hcard : Multiset.card c.managers = 0 := by rw [hm2]; rfl
      exfalso
      apply h0
      omega
  | mgrExit c d l hmem hdisp h0 hd =>
    subst hd
    have hcard : 1 ≤ Multiset.card c.managers := Multiset.card_pos_iff_exists_mem.mpr ⟨_, hmem⟩
    have hone : Multiset.card c.managers = 1 := by omega
    have hb : c.blocked = 0 := by omega
    have hg : c.gotToken = 0 := by omega
    have hcc : c.cancelled = 0 := by omega
    have hsin : c.managers = {MgrState.loop l} := singleton_of_card_le_one hmem h2
    have her : c.managers.erase (MgrState.loop l) = 0 := by
      rw [hsin]
      exact Multiset.erase_cons_head _ _
    refine ⟨?_, ?_, ?_⟩
    · show (0 : ℤ) = (Multiset.card (c.managers.erase (MgrState.loop l)) : ℤ) + _
      unfold inflight
      rw [her, Multiset.card_zero]
      try dsimp only
      push_cast
      omega
    · show Multiset.card (c.managers.erase (MgrState.loop l)) ≤ 1
      rw [her, Multiset.card_zero]
      omega
    · intro _
      exact ⟨hb, hg, hcc⟩
  | mgrFullSend c d l hmem hdisp h0 hd =>
    subst hd
    have hc : Multiset.card (MgrState.sendFull l ::ₘ c.managers.erase (MgrState.loop l)) =
        Multiset.card c.managers := card_swap hmem
    refine ⟨?_, ?_, ?_⟩
    · show c.numConcurrent = _
      unfold inflight
      rw [hc]
      try dsimp only
      omega
    · show Multiset.card (MgrState.sendFull l ::ₘ c.managers.erase (MgrState.loop l)) ≤ 1
      omega
    · intro habs
      exact absurd habs (Multiset.cons_ne_zero)
  | dispenseFull c d l b hmem hb hd =>
    subst hd
    have hc : Multiset.card (MgrState.loop (l - 1) ::ₘ c.managers.erase (MgrState.sendFull l)) =
        Multiset.card c.managers := card_swap hmem
    refine ⟨?_, ?_, ?_⟩
    · unfold inflight
      try dsimp only
      rw [hc]
      push_cast
      omega
    · show Multiset.card (MgrState.loop (l - 1) ::ₘ c.managers.erase (MgrState.sendFull l)) ≤ 1
      omega
    · intro habs
      exact absurd habs (Multiset.cons_ne_zero)
  | dispenseMid c d l b hmem hdisp hb hd =>
    subst hd
    have hc : Multiset.card (MgrState.loop (l - 1) ::ₘ c.managers.erase (MgrState.loop l)) =
        Multiset.card c.managers := card_swap hmem
    refine ⟨?_, ?_, ?_⟩
    · unfold inflight
      try dsimp only
      rw [hc]
      push_cast
      omega
    · show Multiset.card (MgrState.loop (l - 1) ::ₘ c.managers.erase (MgrState.loop l)) ≤ 1
      omega
    · intro habs
      exact absurd habs (Multiset.cons_ne_zero)
  | tickOk c d l hs1 hmem hdisp hd =>
    subst hd
    have hc : Multiset.card (MgrState.loop (l + 1) ::ₘ c.managers.erase (MgrState.loop l)) =
        Multiset.card c.managers := card_swap hmem
    refine ⟨?_, ?_, ?_⟩
    · unfold inflight
      try dsimp only
      rw [hc]
      omega
    · show Multiset.card (MgrState.loop (l + 1) ::ₘ c.managers.erase (MgrState.loop l)) ≤ 1
      omega
    · intro habs
      exact absurd habs (Multiset.cons_ne_zero)
  | tickFail c d s hsch hd =>
    subst hd
    exact ⟨h1, h2, h3⟩
  | cancelHit c d b hb hd =>
    subst hd
    refine ⟨?_, h2, ?_⟩
    · unfold inflight
      try dsimp only
      push_cast
      omega
    · intro hm
      have hm2 : c.managers = 0 := hm
      obtain ⟨hbb, hgg, hcc⟩ := h3 hm2
      exfalso
      omega
  | exitOk c d g hg hd =>
    subst hd
    refine ⟨?_, h2, ?_⟩
    · unfold inflight
      try dsimp only
      omega
    · intro hm
      have hm2 : c.managers = 0 := hm
      obtain ⟨hbb, hgg, hcc⟩ := h3 hm2
      exfalso
      omega
  | exitCancel c d g hg hd =>
    subst hd
    refine ⟨?_, h2, ?_⟩
    · unfold inflight
      try dsimp only
      omega
    · intro hm
      have hm2 : c.managers = 0 := hm
      obtain ⟨hbb, hgg, hcc⟩ := h3 hm2
      exfalso
      omega

/-- Any property that holds at the start and is preserved by every
allowed step holds at every reachable configuration. -/
lemma reach_preserve {max : ℤ} {A : Lbl → Prop} {start : Config}
    (P : Config → Prop) (h0 : P start)
    (hstep : ∀ lbl c d, A lbl → Step max lbl c d → P c → P d) :
    ∀ c, Reach max A start c → P c := by
  intro c h
  induction h with
  | refl => exact h0
  | tail hr hst ha ih => exact hstep _ _ _ ha hst ih

lemma reach_inv {max : ℤ} {A : Lbl → Prop} {c : Config}
    (h : Reach max A init c) : Inv c :=
  reach_preserve Inv inv_init (fun _ _ _ _ hs hi => step_preserves_inv hs hi) c h

/-! The level invariant: every running manager keeps its tokenCount
between 0 and maxTokens, and a manager blocked on the full-state send
holds exactly maxTokens. -/

def MgrOk (max : ℤ) : MgrState → Prop
  | .loop l => 0 ≤ l ∧ l ≤ max
  | .sendFull l => l = max

def LevelInv (max : ℤ) (c : Config) : Prop := ∀ m ∈ c.managers, MgrOk max m

lemma step_preserves_levelInv {max : ℤ} (hmax : 1 ≤ max) {lbl : Lbl} {c d : Config}
    (hs : Step max lbl c d) (hi : LevelInv max c) : LevelInv max d := by
  cases hs with
  | enterStart c d h0 hd =>
    subst hd
    intro m hm
    rcases Multiset.mem_cons.mp hm with h | h
    · subst h
      exact ⟨by omega, le_refl max⟩
    · exact hi m h
  | enterJoin c d h0 hd =>
    subst hd
    exact hi
  | mgrExit c d l hmem hdisp h0 hd =>
    subst hd
    intro m hm
    exact hi m (Multiset.mem_of_mem_erase hm)
  | mgrFullSend c d l hmem hdisp h0 hd =>
    subst hd
    intro m hm
    rcases mem_swap hm with h | h
    · subst h
      exact (dispatch_full_iff max l).mp hdisp |>.2
    · exact hi m h
  | dispenseFull c d l b hmem hb hd =>
    subst hd
    intro m hm
    rcases mem_swap hm with h | h
    · subst h
      have hl : l = max := hi _ hmem
      exact ⟨by omega, by omega⟩
    · exact hi m h
  | dispenseMid c d l b hmem hdisp hb hd =>
    subst hd
    intro m hm
    rcases mem_swap hm with h | h
    · subst h
      obtain ⟨hne0, hnemax⟩ := (dispatch_between_iff max l).mp hdisp
      obtain ⟨h0l, hlm⟩ := hi _ hmem
      exact ⟨by omega, by omega⟩
    · exact hi m h
  | tickOk c d l hs1 hmem hdisp hd =>
    subst hd
    intro m hm
    rcases mem_swap hm with h | h
    · subst h
      obtain ⟨h0l, hlm⟩ := hi _ hmem
      rcases hdisp with h | h
      · have hl0 : l = 0 := (dispatch_empty_iff max l).mp h
        exact ⟨by omega, by omega⟩
      · obtain ⟨hne0, hnemax⟩ := (dispatch_between_iff max l).mp h
        exact ⟨by omega, by omega⟩
    · exact hi m h
  | tickFail c d s hsch hd =>
    subst hd
    exact hi
  | cancelHit c d b hb hd =>
    subst hd
    exact hi
  | exitOk c d g hg hd =>
    subst hd
    exact hi
  | exitCancel c d g hg hd =>
    subst hd
    exact hi

lemma reach_levelInv {max : ℤ} (hmax : 1 ≤ max) {A : Lbl → Prop} {c : Config}
    (h : Reach max A init c) : LevelInv max c :=
  reach_preserve (LevelInv max) (fun m hm => absurd hm (Multiset.not_mem_zero m))
    (fun _ _ _ _ hs hi => step_preserves_levelInv hmax hs hi) c h

/-! The starvation invariant at capacity zero: the switch of
manageTokens dispatches tokenCount = 0 to its first case even when
maxTokens = 0, so the manager only ever waits on l.in, no refill
goroutine is ever started, and no token is ever dispensed. -/

def Inv9 (c : Config) : Prop :=
  c.schedulers = 0 ∧ c.gotToken = 0 ∧ c.doneOk = 0 ∧
  ∀ m ∈ c.managers, m = MgrState.loop 0

lemma step_preserves_inv9 {lbl : Lbl} {c d : Config}
    (hs : Step 0 lbl c d) (hi : Inv9 c) : Inv9 d := by
  obtain ⟨hsch, hgt, hdk, hmg⟩ := hi
  cases hs with
  | enterStart c d h0 hd =>
    subst hd
    refine ⟨hsch, hgt, hdk, ?_⟩
    intro m hm
    rcases Multiset.mem_cons.mp hm with h | h
    · exact h
    · exact hmg m h
  | enterJoin c d h0 hd =>
    subst hd
    exact ⟨hsch, hgt, hdk, hmg⟩
  | mgrExit c d l hmem hdisp h0 hd =>
    obtain ⟨hne0, hl⟩ := (dispatch_full_iff 0 l).mp hdisp
    exact absurd hl hne0
  | mgrFullSend c d l hmem hdisp h0 hd =>
    obtain ⟨hne0, hl⟩ := (dispatch_full_iff 0 l).mp hdisp
    exact absurd hl hne0
  | dispenseFull c d l b hmem hb hd =>
    exact absurd (hmg _ hmem) (by simp)
  | dispenseMid c d l b hmem hdisp hb hd =>
    obtain ⟨hne0, _⟩ := (dispatch_between_iff 0 l).mp hdisp
    have : MgrState.loop l = MgrState.loop 0 := hmg _ hmem
    exact absurd (by injection this) hne0
  | tickOk c d l hs1 hmem hdisp hd =>
    omega
  | tickFail c d s hsc hd =>
    omega
  | cancelHit c d b hb hd =>
    subst hd
    exact ⟨hsch, hgt, hdk, hmg⟩
  | exitOk c d g hg hd =>
    omega
  | exitCancel c d g hg hd =>
    subst hd
    exact ⟨hsch, hgt, hdk, hmg⟩

lemma reach_inv9 {A : Lbl → Prop} {c : Config}
    (h : Reach 0 A init c) : Inv9 c :=
  reach_preserve Inv9
    ⟨rfl, rfl, rfl, fun m hm => absurd hm (Multiset.not_mem_zero m)⟩
    (fun _ _ _ _ hs hi => step_preserves_inv9 hs hi) c h

/-! Token conservation without refills: along an execution in which no
ticker ever fires, the running manager holds exactly maxTokens minus
the number of tokens handed out, so at most maxTokens admissions can
succeed. -/

def dispensed (c : Config) : ℤ := (c.gotToken : ℤ) + (c.doneOk : ℤ)

def Inv7 (max : ℤ) (c : Config) : Prop :=
  (c.managers = 0 ∧ dispensed c = 0) ∨
  (∃ m, c.managers = {m} ∧ MgrOk max m ∧ levelOf m + dispensed c = max)

lemma step_preserves_inv7 {max : ℤ} (hmax : 1 ≤ max) {lbl : Lbl} {c d : Config}
    (hnt : lbl ≠ Lbl.tickOk) (hs : Step max lbl c d)
    (hinv : Inv c) (hi : Inv7 max c) : Inv7 max d := by
  obtain ⟨h1, h2, h3⟩ := hinv
  unfold inflight at h1
  cases hs with
  | enterStart c d h0 hd =>
    subst hd
    have hcard : Multiset.card c.managers = 0 := by omega
    have hm : c.managers = 0 := Multiset.card_eq_zero.mp hcard
    have hd0 : dispensed c = 0 := by
      rcases hi with ⟨_, h⟩ | ⟨m, hmm, _⟩
      · exact h
      · rw [hm] at hmm
        exact absurd hmm.symm (Multiset.singleton_ne_zero m)
    refine Or.inr ⟨MgrState.loop max, ?_, ⟨by omega, le_refl max⟩, ?_⟩
    · show MgrState.loop max ::ₘ c.managers = {MgrState.loop max}
      rw [hm]
      rfl
    · show levelOf (MgrState.loop max) + dispensed _ = max
      simp only [dispensed, levelOf] at hd0 ⊢
      omega
  | enterJoin c d h0 hd =>
    subst hd
    rcases hi with ⟨hm, hdd⟩ | ⟨m, hmm, hok, hsum⟩
    · exact Or.inl ⟨hm, hdd⟩
    · exact Or.inr ⟨m, hmm, hok, hsum⟩
  | mgrExit c d l hmem hdisp h0 hd =>
    subst hd
    rcases hi with ⟨hm, hdd⟩ | ⟨m, hmm, hok, hsum⟩
    · rw [hm] at hmem
      exact absurd hmem (Multiset.not_mem_zero _)
    · have hml : m = MgrState.loop l := by
        rw [hmm] at hmem
        exact (Multiset.mem_singleton.mp hmem).symm
      subst hml
      have hlm : l = max := ((dispatch_full_iff max l).mp hdisp).2
      have hdd : dispensed c = 0 := by
        simp only [levelOf] at hsum
        omega
      refine Or.inl ⟨?_, ?_⟩
      · show c.managers.erase (MgrState.loop l) = 0
        rw [hmm]
        exact Multiset.erase_singleton _
      · show dispensed _ = 0
        simp only [dispensed] at hdd ⊢
        exact hdd
  | mgrFullSend c d l hmem hdisp h0 hd =>
    subst hd
    rcases hi with ⟨hm, hdd⟩ | ⟨m, hmm, hok, hsum⟩
    · rw [hm] at hmem
      exact absurd hmem (Multiset.not_mem_zero _)
    · have hml : m = MgrState.loop l := by
        rw [hmm] at hmem
        exact (Multiset.mem_singleton.mp hmem).symm
      subst hml
      have hlm : l = max := ((dispatch_full_iff max l).mp hdisp).2
      refine Or.inr ⟨MgrState.sendFull l, ?_, hlm, ?_⟩
      · show MgrState.sendFull l ::ₘ c.managers.erase (MgrState.loop l) = _
        rw [hmm, Multiset.erase_singleton]
        rfl
      · simp only [levelOf, dispensed] at hsum ⊢
        omega
  | dispenseFull c d l b hmem hb hd =>
    subst hd
    rcases hi with ⟨hm, hdd⟩ | ⟨m, hmm, hok, hsum⟩
    · rw [hm] at hmem
      exact absurd hmem (Multiset.not_mem_zero _)
    · have hml : m = MgrState.sendFull l := by
        rw [hmm] at hmem
        exact (Multiset.mem_singleton.mp hmem).symm
      subst hml
      have hlm : l = max := hok
      refine Or.inr ⟨MgrState.loop (l - 1), ?_, ⟨by omega, by omega⟩, ?_⟩
      · show MgrState.loop (l - 1) ::ₘ c.managers.erase (MgrState.sendFull l) = _
        rw [hmm, Multiset.erase_singleton]
        rfl
      · simp only [levelOf, dispensed] at hsum ⊢
        push_cast
        omega
  | dispenseMid c d l b hmem hdisp hb hd =>
    subst hd
    rcases hi with ⟨hm, hdd⟩ | ⟨m, hmm, hok, hsum⟩
    · rw [hm] at hmem
      exact absurd hmem (Multiset.not_mem_zero _)
    · have hml : m = MgrState.loop l := by
        rw [hmm] at hmem
        exact (Multiset.mem_singleton.mp hmem).symm
      subst hml
      obtain ⟨hne0, hnemax⟩ := (dispatch_between_iff max l).mp hdisp
      obtain ⟨h0l, hlmax⟩ := hok
      refine Or.inr ⟨MgrState.loop (l - 1), ?_, ⟨by omega, by omega⟩, ?_⟩
      · show MgrState.loop (l - 1) ::ₘ c.managers.erase (MgrState.loop l) = _
        rw [hmm, Multiset.erase_singleton]
        rfl
      · simp only [levelOf, dispensed] at hsum ⊢
        push_cast
        omega
  | tickOk c d l hs1 hmem hdisp hd =>
    exact absurd rfl hnt
  | tickFail c d s hsc hd =>
    subst hd
    rcases hi with ⟨hm, hdd⟩ | ⟨m, hmm, hok, hsum⟩
    · exact Or.inl ⟨hm, hdd⟩
    · exact Or.inr ⟨m, hmm, hok, hsum⟩
  | cancelHit c d b hb hd =>
    subst hd
    rcases hi with ⟨hm, hdd⟩ | ⟨m, hmm, hok, hsum⟩
    · exact Or.inl ⟨hm, hdd⟩
    · exact Or.inr ⟨m, hmm, hok, hsum⟩
  | exitOk c d g hg hd =>
    subst hd
    rcases hi with ⟨hm, hdd⟩ | ⟨m, hmm, hok, hsum⟩
    · refine Or.inl ⟨hm, ?_⟩
      simp only [dispensed] at hdd ⊢
      push_cast
      omega
    · refine Or.inr ⟨m, hmm, hok, ?_⟩
      simp only [dispensed] at hsum ⊢
      push_cast
      omega
  | exitCancel c d g hg hd =>
    subst hd
    rcases hi with ⟨hm, hdd⟩ | ⟨m, hmm, hok, hsum⟩
    · exact Or.inl ⟨hm, hdd⟩
    · exact Or.inr ⟨m, hmm, hok, hsum⟩

lemma reach_inv7 {max : ℤ} (hmax : 1 ≤ max) {c : Config}
    (h : Reach max NoTick init c) : Inv7 max c := by
  have hp : ∀ c, Reach max NoTick init c → Inv c ∧ Inv7 max c := by
    refine reach_preserve _ ⟨inv_init, Or.inl ⟨rfl, rfl⟩⟩ ?_
    intro lbl c d ha hs hi
    exact ⟨step_preserves_inv hs hi.1,
           step_preserves_inv7 hmax ha.1 hs hi.1 hi.2⟩
  exact (hp c h).2

/-! Helper lemmas for the refill scheduler run. -/

lemma refillTokens_count (ticks : List Bool) :
    (refillTokens ticks).1 = (ticks.takeWhile (fun b => b)).length := by
  induction ticks with
  | nil => rfl
  | cons a t ih => cases a <;> simp [refillTokens, List.takeWhile_cons, ih]

lemma refillTokens_stopped (ticks : List Bool) :
    (refillTokens ticks).2 = true ↔ false ∈ ticks := by
  induction ticks with
  | nil => simp [refillTokens]
  | cons a t ih => cases a <;> simp [refillTokens, ih]

/-- Claim C4: every call of Limit returns exactly one of two results:
nil (success) when the select takes the token branch, and the error of
the context supplied by the caller when the select takes the
cancellation branch; no other outcome exists. -/
theorem limit_outcome_dichotomy (α : Type) (n : ℤ)
    (branch : LimitBranch) (ctxErr : α) :
    ((Limit n branch ctxErr).2.2 = none ∧ branch = LimitBranch.tokenArrived) ∨
    ((Limit n branch ctxErr).2.2 = some ctxErr ∧ branch = LimitBranch.ctxDone) := by
  cases branch
  · exact Or.inl ⟨rfl, rfl⟩
  · exact Or.inr ⟨rfl, rfl⟩

/-- Claim C5: on every tick the refill scheduler attempts one
non-blocking delivery; a successful delivery contributes exactly one
token and the run continues, while the first failed delivery stops the
run permanently with no further tokens; overall a run delivers one
token per tick of the longest successful prefix and stops exactly when
some tick fails. -/
theorem refill_scheduler_behavior (rest ticks : List Bool) :
    refillTokens (true :: rest) =
      ((refillTokens rest).1 + 1, (refillTokens rest).2) ∧
    refillTokens (false :: rest) = (0, true) ∧
    (refillTokens ticks).1 = (ticks.takeWhile (fun b => b)).length ∧
    ((refillTokens ticks).2 = true ↔ false ∈ ticks) :=
  ⟨rfl, rfl, refillTokens_count ticks, refillTokens_stopped ticks⟩

/-- Claim C8 counterexample: at capacity 0 the source constructor does
not fail: it returns a usable handle recording capacity 0, while the
validating constructor of the spec would return none. -/
theorem construct_no_validation_cx :
    NewReservoirLimiter 0 1 =
      some { maxTokens := 0, refillDuration := 1, numConcurrent := 0 } ∧
    NewReservoirLimiter 0 1 ≠ none ∧
    constructSpec 0 1 = none := by
  refine ⟨rfl, ?_, by decide⟩
  intro h
  exact Option.noConfusion h

/-- Claim C8 (amended): the constructor performs no validation: for
every capacity and refill period, including non-positive ones, it
returns a handle with exactly that capacity and refill period. -/
theorem construct_returns_handle (m r : ℤ) :
    NewReservoirLimiter m r =
      some { maxTokens := m, refillDuration := r, numConcurrent := 0 } := rfl

/-- Claim C9: with maxTokens = 0 the switch sends tokenCount = 0 to its
empty case, so in every reachable configuration no admission has ever
succeeded, no refill goroutine was ever started, and any running
manager still waits at level 0; hence every Limit call can only leave
through its cancellation branch. -/
theorem zero_capacity_starves (c : Config) (h : Reach 0 AllL init c) :
    c.doneOk = 0 ∧ c.gotToken = 0 ∧ c.schedulers = 0 ∧
    (∀ m ∈ c.managers, m = MgrState.loop 0) ∧
    switchDispatch 0 0 = SwitchCase.empty := by
  obtain ⟨hs, hg, hdk, hmg⟩ := reach_inv9 h
  exact ⟨hdk, hg, hs, hmg, rfl⟩

/-- Claim C2: in every reachable configuration at most one manager
runs and the manager is running exactly when the participant count is
positive; moreover entering Limit either turns count 0 into 2 and adds
a manager or only increments the count, both exits decrement the
count, and the only step that removes the manager turns count 1 into 0
in the same atomic mutex section. -/
theorem manager_lifecycle_invariant (max : ℤ) (c : Config)
    (h : Reach max AllL init c) :
    Multiset.card c.managers ≤ 1 ∧
    (0 < c.numConcurrent ↔ c.managers ≠ 0) ∧
    (∀ d, Step max Lbl.enter c d →
      (c.numConcurrent = 0 ∧ d.numConcurrent = 2 ∧
        d.managers = MgrState.loop max ::ₘ c.managers) ∨
      (c.numConcurrent ≠ 0 ∧ d.numConcurrent = c.numConcurrent + 1 ∧
        d.managers = c.managers)) ∧
    (∀ d, Step max Lbl.exitOk c d → d.numConcurrent = c.numConcurrent - 1) ∧
    (∀ d, Step max Lbl.exitCancel c d → d.numConcurrent = c.numConcurrent - 1) ∧
    (∀ d, Step max Lbl.mgrCheck c d → d.managers = 0 →
      c.numConcurrent = 1 ∧ d.numConcurrent = 0) := by
  obtain ⟨h1, h2, h3⟩ := reach_inv h
  unfold inflight at h1
  refine ⟨h2, ?_, ?_, ?_, ?_, ?_⟩
  · constructor
    · intro hpos hm0
      obtain ⟨hb, hg, hcc⟩ := h3 hm0
      have hcard : Multiset.card c.managers = 0 := by rw [hm0]; rfl
      omega
    · intro hne
      have hcard : 1 ≤ Multiset.card c.managers :=
        Multiset.card_pos_iff_exists_mem.mpr (Multiset.exists_mem_of_ne_zero hne)
      omega
  · intro d hs
    cases hs with
    | enterStart c d h0 hd =>
      subst hd
      exact Or.inl ⟨h0, rfl, rfl⟩
    | enterJoin c d h0 hd =>
      subst hd
      exact Or.inr ⟨h0, rfl, rfl⟩
  · intro d hs
    cases hs with
    | exitOk c d g hg hd => subst hd; rfl
  · intro d hs
    cases hs with
    | exitCancel c d g hg hd => subst hd; rfl
  · intro d hs
    cases hs with
    | mgrExit c d l hmem hdisp h0 hd =>
      subst hd
      exact fun _ => ⟨h0, rfl⟩
    | mgrFullSend c d l hmem hdisp h0 hd =>
      subst hd
      intro habs
      exact absurd habs (Multiset.cons_ne_zero)

/-- Claim C3: for maxTokens at least 1, a manager started by Limit
begins at level maxTokens, every reachable manager level stays between
0 and maxTokens, and no refill is ever accepted by a manager whose
level is maxTokens. -/
theorem level_bounds (max : ℤ) (hmax : 1 ≤ max) (c : Config)
    (h : Reach max AllL init c) :
    (∀ m ∈ c.managers, 0 ≤ levelOf m ∧ levelOf m ≤ max) ∧
    (∀ d, Step max Lbl.enter c d → c.numConcurrent = 0 →
      MgrState.loop max ∈ d.managers) ∧
    (∀ d, c.managers = {MgrState.loop max} → ¬ Step max Lbl.tickOk c d) := by
  have hlv := reach_levelInv hmax h
  refine ⟨?_, ?_, ?_⟩
  · intro m hm
    have := hlv m hm
    cases m with
    | loop l => exact this
    | sendFull l =>
      have hl : l = max := this
      simp only [levelOf]
      exact ⟨by omega, le_of_eq hl⟩
  · intro d hs h0
    cases hs with
    | enterStart c d hc0 hd =>
      subst hd
      exact Multiset.mem_cons_self _ _
    | enterJoin c d hc0 hd =>
      exact absurd h0 hc0
  · intro d hm hs
    cases hs with
    | tickOk c d l hsched hmem hdisp hd =>
      rw [hm] at hmem
      have hl : l = max := by
        have := Multiset.mem_singleton.mp hmem
        injection this
      rcases hdisp with hh | hh
      · have h0 : l = 0 := (dispatch_empty_iff max l).mp hh
        omega
      · exact absurd hl ((dispatch_between_iff max l).mp hh).2

/-- Claim C6: a Limit call that leaves through the cancellation branch
changes nothing but the participant count: the manager states, the
scheduler count, the token bookkeeping and the other callers are
untouched, and a manager blocked on the full-state send can still hand
its token to any caller that is still blocked. -/
theorem cancelled_call_frame (max : ℤ) (c d e : Config)
    (hc : Step max Lbl.cancelHit c d) (he : Step max Lbl.exitCancel d e) :
    e.managers = c.managers ∧ e.schedulers = c.schedulers ∧
    e.gotToken = c.gotToken ∧ e.doneOk = c.doneOk ∧
    e.blocked + 1 = c.blocked ∧ e.cancelled = c.cancelled ∧
    e.numConcurrent = c.numConcurrent - 1 ∧
    e.doneCancel = c.doneCancel + 1 ∧
    (∀ l b, MgrState.sendFull l ∈ e.managers → e.blocked = b + 1 →
      Step max Lbl.dispense e
        { e with managers :=
            MgrState.loop (l - 1) ::ₘ e.managers.erase (MgrState.sendFull l),
                 blocked := b, gotToken := e.gotToken + 1,
                 schedulers := e.schedulers + 1 }) := by
  cases hc with
  | cancelHit c d b hb hd =>
    subst hd
    cases he with
    | exitCancel _ e g hg hd2 =>
      subst hd2
      refine ⟨rfl, rfl, rfl, rfl, ?_, ?_, rfl, rfl, ?_⟩
      · exact hb.symm
      · have hgc : g = c.cancelled := by
          have : c.cancelled + 1 = g + 1 := hg
          omega
        exact hgc
      · intro l bb hm hbb
        exact Step.dispenseFull _ _ l bb hm hbb rfl

/-- Claim C1: with exactly one manager running at level l, the loop of
manageTokens behaves as the three-state machine: in the empty case no
dispense step exists and an available refill is received, raising the
level; in the full case the mutex check either terminates the manager
at participant count 1 or moves it to the blocking send, from which a
dispense lowers the level and starts one refill goroutine; in between,
both the refill and the dispense rendezvous are enabled, whichever
fires first. -/
theorem manage_three_state (max : ℤ) (c : Config) (l : ℤ)
    (hm : c.managers = {MgrState.loop l}) :
    (switchDispatch max l = SwitchCase.empty →
      (∀ lbl d, Step max lbl c d → lbl ≠ Lbl.dispense) ∧
      (1 ≤ c.schedulers →
        Step max Lbl.tickOk c
          { c with managers := {MgrState.loop (l + 1)} })) ∧
    (switchDispatch max l = SwitchCase.full →
      (c.numConcurrent = 1 →
        Step max Lbl.mgrCheck c
          { c with numConcurrent := 0, managers := 0 }) ∧
      (c.numConcurrent ≠ 1 →
        Step max Lbl.mgrCheck c
          { c with managers := {MgrState.sendFull l} } ∧
        ∀ b, c.blocked = b + 1 →
          Step max Lbl.dispense { c with managers := {MgrState.sendFull l} }
            { c with managers := {MgrState.loop (l - 1)}, blocked := b,
                     gotToken := c.gotToken + 1,
                     schedulers := c.schedulers + 1 })) ∧
    (switchDispatch max l = SwitchCase.between →
      (1 ≤ c.schedulers →
        Step max Lbl.tickOk c
          { c with managers := {MgrState.loop (l + 1)} }) ∧
      (∀ b, c.blocked = b + 1 →
        Step max Lbl.dispense c
          { c with managers := {MgrState.loop (l - 1)}, blocked := b,
                   gotToken := c.gotToken + 1 })) := by
  have hmem : MgrState.loop l ∈ c.managers := by
    rw [hm]
    exact Multiset.mem_singleton_self _
  refine ⟨?_, ?_, ?_⟩
  · intro hdisp
    constructor
    · intro lbl d hs heq
      subst heq
      cases hs with
      | dispenseFull c d l0 b hmem0 hb hd =>
        rw [hm] at hmem0
        have := Multiset.mem_singleton.mp hmem0
        exact MgrState.noConfusion this
      | dispenseMid c d l0 b hmem0 hdisp0 hb hd =>
        rw [hm] at hmem0
        have hl0 : l0 = l := by
          have := Multiset.mem_singleton.mp hmem0
          injection this
        rw [hl0, hdisp] at hdisp0
        exact SwitchCase.noConfusion hdisp0
    · intro hsched
      refine Step.tickOk c _ l hsched hmem (Or.inl hdisp) ?_
      rw [hm, Multiset.erase_singleton, Multiset.cons_zero]
  · intro hdisp
    constructor
    · intro h1
      refine Step.mgrExit c _ l hmem hdisp h1 ?_
      rw [hm, Multiset.erase_singleton]
    · intro h1
      constructor
      · refine Step.mgrFullSend c _ l hmem hdisp h1 ?_
        rw [hm, Multiset.erase_singleton, Multiset.cons_zero]
      · intro b hb
        refine Step.dispenseFull _ _ l b (Multiset.mem_singleton_self _) hb ?_
        show _ = Config.mk _ _ _ _ _ _ _ _
        rw [Multiset.erase_singleton, Multiset.cons_zero]
  · intro hdisp
    constructor
    · intro hsched
      refine Step.tickOk c _ l hsched hmem (Or.inr hdisp) ?_
      rw [hm, Multiset.erase_singleton, Multiset.cons_zero]
    · intro b hb
      refine Step.dispenseMid c _ l b hmem hdisp hb ?_
      rw [hm, Multiset.erase_singleton, Multiset.cons_zero]

/-! Reach is transitive, and a concrete drain execution: with one
caller entering, receiving a token and leaving per round, the manager
level drops by one and the success count rises by one per round. -/

lemma reach_trans {max : ℤ} {A : Lbl → Prop} {a b c : Config}
    (h1 : Reach max A a b) (h2 : Reach max A b c) : Reach max A a c := by
  induction h2 with
  | refl => exact h1
  | tail hr hs ha ih => exact Reach.tail ih hs ha

lemma ntc (l : Lbl) (h1 : l ≠ Lbl.tickOk) (h2 : l ≠ Lbl.tickFail)
    (h3 : l ≠ Lbl.cancelHit) : NoTickCancel l := ⟨⟨h1, h2⟩, h3⟩

lemma drain_round (max l : ℤ) (dk s : ℕ) (h0 : l ≠ 0) (hmx : l ≠ max) :
    Reach max NoTickCancel (midCfg l dk s) (midCfg (l - 1) (dk + 1) s) := by
  have hbet : switchDispatch max l = SwitchCase.between :=
    (dispatch_between_iff max l).mpr ⟨h0, hmx⟩
  have s1 : Step max Lbl.enter (midCfg l dk s)
      (Config.mk 2 {MgrState.loop l} 1 0 0 dk 0 s) := by
    refine Step.enterJoin _ _ ?_ rfl
    show (1 : ℤ) ≠ 0
    decide
  have s2 : Step max Lbl.dispense (Config.mk 2 {MgrState.loop l} 1 0 0 dk 0 s)
      (Config.mk 2 {MgrState.loop (l - 1)} 0 1 0 dk 0 s) := by
    refine Step.dispenseMid _ _ l 0 (Multiset.mem_singleton_self _) hbet rfl ?_
    try dsimp only
    rw [Multiset.erase_singleton, Multiset.cons_zero]
  have s3 : Step max Lbl.exitOk (Config.mk 2 {MgrState.loop (l - 1)} 0 1 0 dk 0 s)
      (midCfg (l - 1) (dk + 1) s) :=
    Step.exitOk _ _ 0 rfl rfl
  exact Reach.tail
    (Reach.tail
      (Reach.tail Reach.refl s1 (ntc _ (by decide) (by decide) (by decide)))
      s2 (ntc _ (by decide) (by decide) (by decide)))
    s3 (ntc _ (by decide) (by decide) (by decide))

lemma drain_many (max : ℤ) (s : ℕ) :
    ∀ (k : ℕ) (l : ℤ) (dk : ℕ), (k : ℤ) ≤ l → l ≤ max - 1 →
      Reach max NoTickCancel (midCfg l dk s) (midCfg (l - k) (dk + k) s) := by
  intro k
  induction k with
  | zero =>
    intro l dk h1 h2
    have e1 : l - ((0 : ℕ) : ℤ) = l := by push_cast; ring
    rw [e1]
    exact Reach.refl
  | succ n ih =>
    intro l dk h1 h2
    have hn1 : ((n + 1 : ℕ) : ℤ) = (n : ℤ) + 1 := by push_cast; ring
    have hr1 : Reach max NoTickCancel (midCfg l dk s) (midCfg (l - 1) (dk + 1) s) :=
      drain_round max l dk s (by omega) (by omega)
    have hr2 : Reach max NoTickCancel (midCfg (l - 1) (dk + 1) s)
        (midCfg ((l - 1) - n) ((dk + 1) + n) s) :=
      ih (l - 1) (dk + 1) (by omega) (by omega)
    have h := reach_trans hr1 hr2
    rw [show (l - 1) - (n : ℤ) = l - ((n + 1 : ℕ) : ℤ) by rw [hn1]; ring,
        show (dk + 1) + n = dk + (n + 1) by omega] at h
    exact h

/-- Claim C7: for every capacity at least 1, with no cancellation and
no elapsed refill time there is an execution in which exactly capacity
many admissions succeed and no caller is left behind; and along any
execution with no elapsed refill time the number of tokens handed out
never exceeds the capacity, so an extra concurrent request can only be
served after a refill or leave through cancellation. -/
theorem capacity_admissions (max : ℤ) (hmax : 1 ≤ max) :
    (∃ c, Reach max NoTickCancel init c ∧ (c.doneOk : ℤ) = max ∧
      c.blocked = 0 ∧ c.gotToken = 0 ∧ c.cancelled = 0 ∧ c.doneCancel = 0) ∧
    (∀ c, Reach max NoTick init c →
      (c.gotToken : ℤ) + (c.doneOk : ℤ) ≤ max) := by
  constructor
  · have hfull : switchDispatch max max = SwitchCase.full :=
      (dispatch_full_iff max max).mpr ⟨by omega, rfl⟩
    have s1 : Step max Lbl.enter init
        (Config.mk 2 {MgrState.loop max} 1 0 0 0 0 0) :=
      Step.enterStart _ _ rfl rfl
    have s2 : Step max Lbl.mgrCheck (Config.mk 2 {MgrState.loop max} 1 0 0 0 0 0)
        (Config.mk 2 {MgrState.sendFull max} 1 0 0 0 0 0) := by
      refine Step.mgrFullSend _ _ max (Multiset.mem_singleton_self _) hfull
        (by show (2 : ℤ) ≠ 1; decide) ?_
      try dsimp only
      rw [Multiset.erase_singleton, Multiset.cons_zero]
    have s3 : Step max Lbl.dispense (Config.mk 2 {MgrState.sendFull max} 1 0 0 0 0 0)
        (Config.mk 2 {MgrState.loop (max - 1)} 0 1 0 0 0 1) := by
      refine Step.dispenseFull _ _ max 0 (Multiset.mem_singleton_self _) rfl ?_
      try dsimp only
      rw [Multiset.erase_singleton, Multiset.cons_zero]
    have s4 : Step max Lbl.exitOk (Config.mk 2 {MgrState.loop (max - 1)} 0 1 0 0 0 1)
        (midCfg (max - 1) 1 1) :=
      Step.exitOk _ _ 0 rfl rfl
    have phase1 : Reach max NoTickCancel init (midCfg (max - 1) 1 1) :=
      Reach.tail
        (Reach.tail
          (Reach.tail
            (Reach.tail Reach.refl s1 (ntc _ (by decide) (by decide) (by decide)))
            s2 (ntc _ (by decide) (by decide) (by decide)))
          s3 (ntc _ (by decide) (by decide) (by decide)))
        s4 (ntc _ (by decide) (by decide) (by decide))
    have hk : (((max - 1).toNat : ℕ) : ℤ) = max - 1 :=
      Int.toNat_of_nonneg (by omega)
    have phase2 : Reach max NoTickCancel (midCfg (max - 1) 1 1)
        (midCfg ((max - 1) - ((max - 1).toNat : ℤ)) (1 + (max - 1).toNat) 1) :=
      drain_many max 1 (max - 1).toNat (max - 1) 1 (by omega) (by omega)
    refine ⟨_, reach_trans phase1 phase2, ?_, rfl, rfl, rfl, rfl⟩
    show ((1 + (max - 1).toNat : ℕ) : ℤ) = max
    push_cast
    omega
  · intro c h
    have h7 := reach_inv7 hmax h
    rcases h7 with ⟨hm0, hd0⟩ | ⟨m, hmm, hok, hsum⟩
    · simp only [dispensed] at hd0
      omega
    · have hlv : 0 ≤ levelOf m := by
        cases m with
        | loop l2 => exact hok.1
        | sendFull l2 =>
          have hl2 : l2 = max := hok
          simp only [levelOf]
          omega
      simp only [dispensed] at hsum
      omega

/-- Claim C10: a Limit call whose context is already done still runs
the full entry bookkeeping before the select observes the
cancellation: the started-manager flag and the final count do not
depend on the branch, the call returns ctx.Err(), and around the whole
call the count returns to its entry value plus the share of the
manager the call itself started (zero net contribution of the
caller). -/
theorem cancelled_entry_bookkeeping (α : Type) (n : ℤ) (err : α)
    (max : ℤ) (c : Config) :
    (Limit n LimitBranch.ctxDone err).2.2 = some err ∧
    (Limit n LimitBranch.ctxDone err).2.1 = (limitEnter n).2 ∧
    (Limit n LimitBranch.ctxDone err).1 = (limitEnter n).1 - 1 ∧
    (Limit n LimitBranch.tokenArrived err).1 =
      (Limit n LimitBranch.ctxDone err).1 ∧
    (Limit n LimitBranch.tokenArrived err).2.1 =
      (Limit n LimitBranch.ctxDone err).2.1 ∧
    (n = 0 → (limitEnter n).2 = true ∧
      (Limit n LimitBranch.ctxDone err).1 = n + 1) ∧
    (n ≠ 0 → (limitEnter n).2 = false ∧
      (Limit n LimitBranch.ctxDone err).1 = n) ∧
    (c.numConcurrent = 0 →
      ∃ d e f, Step max Lbl.enter c d ∧ Step max Lbl.cancelHit d e ∧
        Step max Lbl.exitCancel e f ∧ MgrState.loop max ∈ f.managers ∧
        f.numConcurrent = 1 ∧ f.doneCancel = c.doneCancel + 1) ∧
    (c.numConcurrent ≠ 0 →
      ∃ d e f, Step max Lbl.enter c d ∧ Step max Lbl.cancelHit d e ∧
        Step max Lbl.exitCancel e f ∧
        f.numConcurrent = c.numConcurrent ∧
        f.doneCancel = c.doneCancel + 1) := by
  refine ⟨rfl, rfl, rfl, rfl, rfl, ?_, ?_, ?_, ?_⟩
  · intro h
    subst h
    exact ⟨rfl, rfl⟩
  · intro h
    refine ⟨?_, ?_⟩
    · simp [limitEnter, h]
    · simp [Limit, limitEnter, h]
  · intro h0
    refine ⟨Config.mk 2 (MgrState.loop max ::ₘ c.managers) (c.blocked + 1)
              c.gotToken c.cancelled c.doneOk c.doneCancel c.schedulers,
            Config.mk 2 (MgrState.loop max ::ₘ c.managers) c.blocked
              c.gotToken (c.cancelled + 1) c.doneOk c.doneCancel c.schedulers,
            Config.mk 1 (MgrState.loop max ::ₘ c.managers) c.blocked
              c.gotToken c.cancelled c.doneOk (c.doneCancel + 1) c.schedulers,
            Step.enterStart c _ h0 rfl,
            Step.cancelHit _ _ c.blocked rfl rfl,
            Step.exitCancel _ _ c.cancelled rfl rfl,
            Multiset.mem_cons_self _ _, rfl, rfl⟩
  · intro h0
    refine ⟨Config.mk (c.numConcurrent + 1) c.managers (c.blocked + 1)
              c.gotToken c.cancelled c.doneOk c.doneCancel c.schedulers,
            Config.mk (c.numConcurrent + 1) c.managers c.blocked
              c.gotToken (c.cancelled + 1) c.doneOk c.doneCancel c.schedulers,
            Config.mk (c.numConcurrent + 1 - 1) c.managers c.blocked
              c.gotToken c.cancelled c.doneOk (c.doneCancel + 1) c.schedulers,
            Step.enterJoin c _ h0 rfl,
            Step.cancelHit _ _ c.blocked rfl rfl,
            Step.exitCancel _ _ c.cancelled rfl rfl,
            by show c.numConcurrent + 1 - 1 = c.numConcurrent; omega, rfl⟩

/-! Witness configurations and witness theorems: each claim theorem
with a hypothesis applied at a concrete input. -/

theorem manage_three_state_witness :
    (switchDispatch 2 1 = SwitchCase.empty →
      (∀ lbl d, Step 2 lbl cfgC1 d → lbl ≠ Lbl.dispense) ∧
      (1 ≤ cfgC1.schedulers →
        Step 2 Lbl.tickOk cfgC1
          { cfgC1 with managers := {MgrState.loop (1 + 1)} })) ∧
    (switchDispatch 2 1 = SwitchCase.full →
      (cfgC1.numConcurrent = 1 →
        Step 2 Lbl.mgrCheck cfgC1
          { cfgC1 with numConcurrent := 0, managers := 0 }) ∧
      (cfgC1.numConcurrent ≠ 1 →
        Step 2 Lbl.mgrCheck cfgC1
          { cfgC1 with managers := {MgrState.sendFull 1} } ∧
        ∀ b, cfgC1.blocked = b + 1 →
          Step 2 Lbl.dispense { cfgC1 with managers := {MgrState.sendFull 1} }
            { cfgC1 with managers := {MgrState.loop (1 - 1)},
                         blocked := b,
                         gotToken := cfgC1.gotToken + 1,
                         schedulers := cfgC1.schedulers + 1 })) ∧
    (switchDispatch 2 1 = SwitchCase.between →
      (1 ≤ cfgC1.schedulers →
        Step 2 Lbl.tickOk cfgC1
          { cfgC1 with managers := {MgrState.loop (1 + 1)} }) ∧
      (∀ b, cfgC1.blocked = b + 1 →
        Step 2 Lbl.dispense cfgC1
          { cfgC1 with managers := {MgrState.loop (1 - 1)},
                       blocked := b,
                       gotToken := cfgC1.gotToken + 1 })) :=
  manage_three_state 2 cfgC1 1 rfl

theorem manager_lifecycle_invariant_witness :
    Multiset.card init.managers ≤ 1 ∧
    (0 < init.numConcurrent ↔ init.managers ≠ 0) ∧
    (∀ d, Step 1 Lbl.enter init d →
      (init.numConcurrent = 0 ∧ d.numConcurrent = 2 ∧
        d.managers = MgrState.loop 1 ::ₘ init.managers) ∨
      (init.numConcurrent ≠ 0 ∧ d.numConcurrent = init.numConcurrent + 1 ∧
        d.managers = init.managers)) ∧
    (∀ d, Step 1 Lbl.exitOk init d → d.numConcurrent = init.numConcurrent - 1) ∧
    (∀ d, Step 1 Lbl.exitCancel init d → d.numConcurrent = init.numConcurrent - 1) ∧
    (∀ d, Step 1 Lbl.mgrCheck init d → d.managers = 0 →
      init.numConcurrent = 1 ∧ d.numConcurrent = 0) :=
  manager_lifecycle_invariant 1 init Reach.refl

theorem level_bounds_witness :
    (∀ m ∈ init.managers, 0 ≤ levelOf m ∧ levelOf m ≤ 1) ∧
    (∀ d, Step 1 Lbl.enter init d → init.numConcurrent = 0 →
      MgrState.loop 1 ∈ d.managers) ∧
    (∀ d, init.managers = {MgrState.loop 1} → ¬ Step 1 Lbl.tickOk init d) :=
  level_bounds 1 (le_refl 1) init Reach.refl

theorem cancelled_call_frame_witness :
    cfgC6c.managers = cfgC6.managers ∧ cfgC6c.schedulers = cfgC6.schedulers ∧
    cfgC6c.gotToken = cfgC6.gotToken ∧ cfgC6c.doneOk = cfgC6.doneOk ∧
    cfgC6c.blocked + 1 = cfgC6.blocked ∧ cfgC6c.cancelled = cfgC6.cancelled ∧
    cfgC6c.numConcurrent = cfgC6.numConcurrent - 1 ∧
    cfgC6c.doneCancel = cfgC6.doneCancel + 1 ∧
    (∀ l b, MgrState.sendFull l ∈ cfgC6c.managers → cfgC6c.blocked = b + 1 →
      Step 2 Lbl.dispense cfgC6c
        { cfgC6c with
            managers :=
              MgrState.loop (l - 1) ::ₘ cfgC6c.managers.erase (MgrState.sendFull l),
            blocked := b,
            gotToken := cfgC6c.gotToken + 1,
            schedulers := cfgC6c.schedulers + 1 }) :=
  cancelled_call_frame 2 cfgC6 cfgC6b cfgC6c
    (Step.cancelHit _ _ 1 rfl rfl) (Step.exitCancel _ _ 0 rfl rfl)

theorem capacity_admissions_witness :
    (∃ c, Reach 1 NoTickCancel init c ∧ (c.doneOk : ℤ) = 1 ∧
      c.blocked = 0 ∧ c.gotToken = 0 ∧ c.cancelled = 0 ∧ c.doneCancel = 0) ∧
    (∀ c, Reach 1 NoTick init c →
      (c.gotToken : ℤ) + (c.doneOk : ℤ) ≤ 1) :=
  capacity_admissions 1 (le_refl 1)

theorem zero_capacity_starves_witness :
    cfgC9.doneOk = 0 ∧ cfgC9.gotToken = 0 ∧ cfgC9.schedulers = 0 ∧
    (∀ m ∈ cfgC9.managers, m = MgrState.loop 0) ∧
    switchDispatch 0 0 = SwitchCase.empty :=
  zero_capacity_starves cfgC9
    (Reach.tail Reach.refl (Step.enterStart init cfgC9 rfl rfl) trivial)

end ReservoirLimiter
